import Mathlib

set_option maxRecDepth 65536

/-!
Verification of the PE Rich ("linker info") header parser.

The embedding models the parser over the raw bytes of the input file,
represented as a `List Nat` (each element one byte, values `< 256`).
File reads are modelled positionally: `readDword bs off` is the
little-endian 32-bit word at byte offset `off`, and is `none` when the
read would run past the end of the available bytes (the source raises
`struct.error` there; the spec's error taxonomy calls this
`TruncatedInput`).  The custom `InvalidHeaderError` of the source is the
spec's `HeaderNotFound` kind.
-/

namespace PERich

/-- Error taxonomy of the decoder: `headerNotFound` corresponds to the
source's `InvalidHeaderError` (no "Rich" / no "DanS" magic), and
`truncatedInput` to a four-byte read running past the end of the input
(a `struct.error` in the source). -/
inductive DecodeError where
  | headerNotFound
  | truncatedInput
deriving DecidableEq, Repr

/-- One decoded Rich-header entry: the `{'build_version': ..., 'used_count': ...}`
dict the source stores per tool id. -/
structure Entry where
  build_version : Nat
  used_count : Nat
deriving DecidableEq, Repr

/-- The decode result: the `entries` OrderedDict (modelled as an
association list in insertion order) and the `checksum_matches` flag. -/
structure RichHeader where
  entries : List (Nat × Entry)
  checksum_matches : Bool
deriving DecidableEq, Repr

/-- `_read_dword`: read four bytes at offset `off` in little-endian order
(`struct.unpack('<I', file_obj.read(4))`); `none` when fewer than four
bytes are available from `off`. -/
def readDword (bs : List Nat) (off : Nat) : Option Nat :=
  if off + 4 ≤ bs.length then
    some (bs.getD off 0 + bs.getD (off + 1) 0 * 256 +
          bs.getD (off + 2) 0 * 65536 + bs.getD (off + 3) 0 * 16777216)
  else none

/-- The bytes of the ASCII string "Rich". -/
def richMagic : List Nat := [0x52, 0x69, 0x63, 0x68]

/-- `data.find(b'Rich')`: index of the first occurrence of the 4-byte
"Rich" sequence in `l`, offset by the running index `idx`; `none` if the
sequence does not occur (the source's `-1`). -/
def findRich : List Nat → Nat → Option Nat
  | [], _ => none
  | b :: rest, idx =>
    if (b :: rest).take 4 = richMagic then some idx
    else findRich rest (idx + 1)

/-- Little-endian encoding of ASCII "DanS". -/
def dansMagic : Nat := 0x536E6144

/-- The brute-force "DanS" scan (source lines 66-74): starting at offset
`off` (the source starts at 0x40), read `n` consecutive dwords
(`n = search_range // 4`), XOR each with the stored checksum, and return
the offset of the first one equal to the "DanS" magic.  Returns `.ok 0`
when the scan completes without a match (the source leaves
`start_of_header = 0`), and `truncatedInput` when a read runs past the
end of the input. -/
def scanDans (bs : List Nat) (chk : Nat) : Nat → Nat → Except DecodeError Nat
  | _, 0 => .ok 0
  | off, n + 1 =>
    match readDword bs off with
    | none => .error .truncatedInput
    | some w =>
      if w ^^^ chk = dansMagic then .ok off
      else scanDans bs chk (off + 4) n

/-- Locating the start of the header (source lines 60-76): try the word
at the default offset 0x80 first; if it does not XOR-decode to "DanS",
brute-force from 0x40 for `(lfa_new - 0x40) // 4` dwords; raise
`InvalidHeaderError` when `start_of_header` is still 0 afterwards.
(When `lfa_new < 0x40` the source's `range` receives a negative length
and performs no iterations, which the truncated `Nat` subtraction
reproduces.) -/
def locateStartAux (bs : List Nat) (lfa chk : Nat) : Except DecodeError Nat :=
  match readDword bs 0x80 with
  | none => .error .truncatedInput
  | some w80 =>
    if w80 ^^^ chk = dansMagic then .ok 0x80
    else
      match scanDans bs chk 0x40 ((lfa - 0x40) / 4) with
      | .error e => .error e
      | .ok 0 => .error .headerNotFound
      | .ok s => .ok s

/-- The per-byte checksum accumulation (source lines 80-91): for the byte
`item` at index `i`, skip the `lfa_new` field (`0x3C <= i < 0x40`),
otherwise add `(item << (i % 32)) | (item >> (32 - (i % 32))) & 0xff`
and reduce the accumulator `& 0xFFFFFFFF` (here `% 2^32`). -/
def byteChecksumAux : List Nat → Nat → Nat → Nat
  | [], _, acc => acc
  | item :: rest, i, acc =>
    if 0x3C ≤ i ∧ i < 0x40 then
      byteChecksumAux rest (i + 1) acc
    else
      byteChecksumAux rest (i + 1)
        ((acc + ((item <<< (i % 32)) ||| ((item >>> (32 - i % 32)) &&& 0xff))) % 4294967296)

/-- `self.entries[c_id] = {...}` on an `OrderedDict`: if the key is
already present its value is replaced in place (the key keeps its
original position), otherwise the pair is appended. -/
def odInsert : List (Nat × Entry) → Nat → Entry → List (Nat × Entry)
  | [], k, v => [(k, v)]
  | (k', v') :: rest, k, v =>
    if k' = k then (k, v) :: rest else (k', v') :: odInsert rest k v

/-- The entry-decoding loop (source lines 99-108): for each of `n`
eight-byte elements starting at offset `off`, XOR-decode the two dwords
with the stored checksum, fold `current_dword << (used_count % 32) |
current_dword >> (32 - (used_count % 32))` into the running checksum
(`% 2^32` after each addition), and insert
`(current_dword >> 16) ↦ {current_dword & 0xFFFF, used_count}` into the
entries mapping. -/
def parseEntries (bs : List Nat) (chk : Nat) :
    Nat → Nat → List (Nat × Entry) → Nat → Except DecodeError (Nat × List (Nat × Entry))
  | _, acc, es, 0 => .ok (acc, es)
  | off, acc, es, n + 1 =>
    match readDword bs off with
    | none => .error .truncatedInput
    | some w1 =>
      match readDword bs (off + 4) with
      | none => .error .truncatedInput
      | some w2 =>
        let current := w1 ^^^ chk
        let used := w2 ^^^ chk
        parseEntries bs chk (off + 8)
          ((acc + ((current <<< (used % 32)) ||| (current >>> (32 - used % 32)))) % 4294967296)
          (odInsert es (current >>> 16) ⟨current &&& 0xFFFF, used⟩) n

/-- `_parse` (source lines 45-110), as a function of the file's bytes:
read `lfa_new` at 0x3C masked `& 0xFFFF`; search the first `lfa_new`
bytes for "Rich"; read the stored checksum just after it; locate the
"DanS" header start; accumulate the per-byte checksum over
`data[:start_of_header]` where `data` is the first `lfa_new` bytes;
decode `(rich_location - start_of_header - 0x10) // 8` entries starting
at `start_of_header + 0x10`; finally compare the recomputed checksum
with the stored one.  (For `rich_location < start_of_header + 0x10` the
source's floor division yields a negative count and `range` performs no
iterations, which the truncated `Nat` subtraction reproduces.) -/
def decode (bs : List Nat) : Except DecodeError RichHeader :=
  match readDword bs 0x3C with
  | none => .error .truncatedInput
  | some w =>
    match findRich (bs.take (w % 65536)) 0 with
    | none => .error .headerNotFound
    | some rich_location =>
      match readDword bs (rich_location + 4) with
      | none => .error .truncatedInput
      | some header_checksum =>
        match locateStartAux bs (w % 65536) header_checksum with
        | .error e => .error e
        | .ok start_of_header =>
          match parseEntries bs header_checksum (start_of_header + 0x10)
              (byteChecksumAux ((bs.take (w % 65536)).take start_of_header) 0 start_of_header)
              [] ((rich_location - start_of_header - 0x10) / 8) with
          | .error e => .error e
          | .ok (fin, es) => .ok ⟨es, fin == header_checksum⟩

/-- Lookup in the entries mapping (`other.entries[k]` / `k in other.entries`). -/
def odLookup : List (Nat × Entry) → Nat → Option Entry
  | [], _ => none
  | (k', v) :: rest, k => if k' = k then some v else odLookup rest k

/-- `__eq__` (source lines 122-133): equal lengths, every key of `self`
present in `other` with an equal value dict, and equal
`checksum_matches`. -/
def richEq (a b : RichHeader) : Bool :=
  if a.entries.length != b.entries.length then false
  else if a.entries.all fun kv => odLookup b.entries kv.1 == some kv.2 then
    a.checksum_matches == b.checksum_matches
  else false

/-! ### Spec-side definitions

These follow the specification's wording and are compared against the
code-side definitions above. -/

/-- Modelled from the spec: 32-bit rotate-left, "implement as explicit
`(value << n | value >> (32-n)) & 0xFFFFFFFF`". -/
def rotl32 (v n : Nat) : Nat := ((v <<< n) ||| (v >>> (32 - n))) % 4294967296

/-- Modelled from the spec (step 5): starting from the accumulator
`acc`, for each byte at running index `i`, skip indices with
`0x3C <= i < 0x40`, otherwise add the 32-bit rotate-left of the byte by
`i % 32` and reduce modulo `2^32`. -/
def specByteSum : List Nat → Nat → Nat → Nat
  | [], _, acc => acc
  | b :: rest, i, acc =>
    if 0x3C ≤ i ∧ i < 0x40 then
      specByteSum rest (i + 1) acc
    else
      specByteSum rest (i + 1) ((acc + rotl32 b (i % 32)) % 4294967296)

/-- Modelled from the spec (step 6): one entry decoded from the two
little-endian dwords at `off`: `tool_id = id_word >> 16`,
`build_version = id_word & 0xFFFF`, `use_count = count_word`, both words
XORed with the stored checksum. -/
def specEntry (bs : List Nat) (chk off : Nat) : Option (Nat × Entry) :=
  match readDword bs off, readDword bs (off + 4) with
  | some w1, some w2 =>
    some ((w1 ^^^ chk) >>> 16, ⟨(w1 ^^^ chk) &&& 0xFFFF, w2 ^^^ chk⟩)
  | _, _ => none

/-- Modelled from the spec (step 6): the list of `n` consecutive decoded
entries starting at offset `off`, eight bytes apart, in on-disk order. -/
def specEntryList (bs : List Nat) (chk : Nat) : Nat → Nat → Option (List (Nat × Entry))
  | _, 0 => some []
  | off, n + 1 =>
    match specEntry bs chk off, specEntryList bs chk (off + 8) n with
    | some e, some l => some (e :: l)
    | _, _ => none

/-- The last value paired with key `k` in `l`, if any: the
"last-decoded pair for any repeated tool_id". -/
def lastWithKey : List (Nat × Entry) → Nat → Option Entry
  | [], _ => none
  | (k', v) :: rest, k =>
    match lastWithKey rest k with
    | some v' => some v'
    | none => if k' = k then some v else none

/-- "Rich" does not occur anywhere in `l` (at any starting index). -/
def richAbsent (l : List Nat) : Prop := ∀ j, (l.drop j).take 4 ≠ richMagic

/-! ### Concrete inputs used by witnesses and counterexamples -/

/-- A well-formed input: `lfa_new = 0xB0`, "DanS" at the default offset
0x80, three null padding dwords, one entry (`tool_id = 1`,
`build_version = 2`, `used_count = 5`), "Rich" at 0x98, stored checksum
0. -/
def B0 : List Nat :=
  List.replicate 0x3C 0 ++ [0xB0, 0, 0, 0] ++ List.replicate 0x40 0 ++
  [0x44, 0x61, 0x6E, 0x53] ++ List.replicate 12 0 ++
  [2, 0, 1, 0] ++ [5, 0, 0, 0] ++
  [0x52, 0x69, 0x63, 0x68] ++ List.replicate 20 0

/-- An input whose "Rich" magic (offset 0x20) lies before the "DanS"
header start (offset 0x80): `lfa_new = 0x90`, stored checksum 0. -/
def B1 : List Nat :=
  List.replicate 0x20 0 ++ [0x52, 0x69, 0x63, 0x68] ++ List.replicate 0x18 0 ++
  [0x90, 0, 0, 0] ++ List.replicate 0x40 0 ++
  [0x44, 0x61, 0x6E, 0x53] ++ List.replicate 12 0

/-- An input with `lfa_new = 0x46` (not a multiple of 4 past 0x40) and a
"DanS" word at the 4-byte-aligned offset 0x44 `< lfa_new`: the source's
scan stops after `(0x46 - 0x40) // 4 = 1` candidate (offset 0x40 only)
and never tests 0x44.  "Rich" at 0x10, stored checksum 0. -/
def B2 : List Nat :=
  List.replicate 0x10 0 ++ [0x52, 0x69, 0x63, 0x68] ++ List.replicate 0x28 0 ++
  [0x46, 0, 0, 0] ++ [0, 0, 0, 0] ++ [0x44, 0x61, 0x6E, 0x53] ++
  List.replicate 0x3C 0

/-- A truncated input (0x60 bytes): "Rich" at 0, `lfa_new = 0x20`, so
the decoder reaches the read of the default-offset word at 0x80, which
runs past the end of the input. -/
def B3 : List Nat :=
  [0x52, 0x69, 0x63, 0x68] ++ List.replicate 0x38 0 ++ [0x20, 0, 0, 0] ++
  List.replicate 0x20 0

/-- An input with `lfa_new = 0x10` smaller than the located header start
0x80 ("DanS" at the default offset): the byte-checksum loop only runs
over the first 0x10 bytes, although the file does contain bytes up to
0x80 (a nonzero one at 0x20).  "Rich" at 0, stored checksum 0. -/
def B4 : List Nat :=
  [0x52, 0x69, 0x63, 0x68] ++ List.replicate 0x1C 0 ++ [1] ++
  List.replicate 0x1B 0 ++ [0x10, 0, 0, 0] ++ List.replicate 0x40 0 ++
  [0x44, 0x61, 0x6E, 0x53]

/-- A truncated input (0x56 bytes): "Rich" at 0x50 inside
`lfa_new = 0x60`, but the stored-checksum read at 0x54 needs bytes up to
0x58. -/
def B6 : List Nat :=
  List.replicate 0x3C 0 ++ [0x60, 0, 0, 0] ++ List.replicate 0x10 0 ++
  [0x52, 0x69, 0x63, 0x68] ++ [0, 0]

/-- 0x40 zero bytes: `lfa_new = 0`, so no "Rich" magic can be found. -/
def B7 : List Nat := List.replicate 0x40 0

/-- An input whose "DanS" word sits at 0x48, found by the brute-force
scan (the word at the default offset 0x80 is zero): `lfa_new = 0x60`,
"Rich" at 0x20, stored checksum 0. -/
def B8 : List Nat :=
  List.replicate 0x20 0 ++ [0x52, 0x69, 0x63, 0x68] ++ List.replicate 0x18 0 ++
  [0x60, 0, 0, 0] ++ List.replicate 8 0 ++ [0x44, 0x61, 0x6E, 0x53] ++
  List.replicate 0x38 0

/-- An input of only 0x30 bytes: fewer than the 0x40 needed to read the
PE-header pointer. -/
def B9 : List Nat := List.replicate 0x30 0

/-! ### Helper lemmas -/

theorem and_255_of_lt (x : Nat) (h : x < 256) : x &&& 0xff = x := by
  have hm : x &&& 255 = x % 256 := by
    have h8 := Nat.and_pow_two_sub_one_eq_mod x 8
    norm_num at h8
    exact h8
  show x &&& 255 = x
  rw [hm]
  omega

theorem shiftRight_le_self (x k : Nat) : x >>> k ≤ x := by
  rw [Nat.shiftRight_eq_div_pow]
  exact Nat.div_le_self x (2 ^ k)

/-- The per-byte accumulation of the source coincides with the spec's
32-bit rotate-left accumulation, for genuine byte values.  For a byte
`b < 256` and rotate amount `n = i % 32 ≤ 31`, the source's
`(b << n) | (b >> (32 - n)) & 0xff` equals the unreduced 32-bit
rotate-left of `b`, so adding it and then reducing `% 2^32` agrees with
adding the reduced rotate. -/
theorem byteChecksumAux_eq_specByteSum :
    ∀ (l : List Nat) (i acc : Nat), (∀ b ∈ l, b < 256) →
      byteChecksumAux l i acc = specByteSum l i acc := by
  intro l
  induction l with
  | nil => intro i acc _; rfl
  | cons b rest ih =>
    intro i acc hb
    have hbb : b < 256 := hb b (List.mem_cons_self b rest)
    have hrest : ∀ x ∈ rest, x < 256 := fun x hx => hb x (List.mem_cons_of_mem b hx)
    by_cases hskip : 0x3C ≤ i ∧ i < 0x40
    · simp only [byteChecksumAux, specByteSum, if_pos hskip]
      exact ih (i + 1) acc hrest
    · simp only [byteChecksumAux, specByteSum, if_neg hskip]
      rw [ih]
      · congr 1
        have hsr : b >>> (32 - i % 32) < 256 :=
          Nat.lt_of_le_of_lt (shiftRight_le_self b (32 - i % 32)) hbb
        rw [and_255_of_lt _ hsr, rotl32]
        omega
      · exact hrest

/-- `parseEntries` performs one step exactly as the spec describes:
XOR-decode the two dwords, add the 32-bit rotate-left of the decoded id
word by `use_count % 32` (reducing modulo `2^32`), and insert the entry
keyed by `tool_id`. -/
theorem parseEntries_step (bs : List Nat) (chk off acc : Nat)
    (es : List (Nat × Entry)) (n w1 w2 : Nat)
    (h1 : readDword bs off = some w1) (h2 : readDword bs (off + 4) = some w2) :
    parseEntries bs chk off acc es (n + 1) =
      parseEntries bs chk (off + 8)
        ((acc + rotl32 (w1 ^^^ chk) ((w2 ^^^ chk) % 32)) % 4294967296)
        (odInsert es ((w1 ^^^ chk) >>> 16) ⟨(w1 ^^^ chk) &&& 0xFFFF, w2 ^^^ chk⟩) n := by
  simp only [parseEntries, h1, h2]
  congr 1
  rw [rotl32]
  omega

/-- `parseEntries` never fails with `headerNotFound`: its only error is
`truncatedInput`. -/
theorem parseEntries_ne_headerNotFound (bs : List Nat) (chk : Nat) :
    ∀ (n off acc : Nat) (es : List (Nat × Entry)),
      parseEntries bs chk off acc es n ≠ .error .headerNotFound := by
  intro n
  induction n with
  | zero => intro off acc es h; simp [parseEntries] at h
  | succ m ih =>
    intro off acc es h
    simp only [parseEntries] at h
    cases h1 : readDword bs off with
    | none => rw [h1] at h; simp at h
    | some w1 =>
      rw [h1] at h
      cases h2 : readDword bs (off + 4) with
      | none => rw [h2] at h; simp at h
      | some w2 =>
        rw [h2] at h
        exact ih _ _ _ h

/-- If some required entry read runs past the available bytes,
`parseEntries` fails with `truncatedInput`. -/
theorem parseEntries_truncated (bs : List Nat) (chk : Nat) :
    ∀ (n off acc : Nat) (es : List (Nat × Entry)), 1 ≤ n →
      bs.length < off + 8 * n →
      parseEntries bs chk off acc es n = .error .truncatedInput := by
  intro n
  induction n with
  | zero => intro off acc es h; omega
  | succ m ih =>
    intro off acc es _ hlen
    simp only [parseEntries]
    cases h1 : readDword bs off with
    | none => rfl
    | some w1 =>
      have hle1 : off + 4 ≤ bs.length := by
        by_contra hc
        simp [readDword, hc] at h1
      cases h2 : readDword bs (off + 4) with
      | none => rfl
      | some w2 =>
        have hle2 : off + 4 + 4 ≤ bs.length := by
          by_contra hc
          simp [readDword, hc] at h2
        have hm : 1 ≤ m := by omega
        exact ih (off + 8) _ _ hm (by omega)

/-- A successful `parseEntries` run decodes exactly the entry list the
spec describes, and folds it into the entries mapping by keyed
insertion. -/
theorem parseEntries_ok_spec (bs : List Nat) (chk : Nat) :
    ∀ (n off acc fin : Nat) (es es' : List (Nat × Entry)),
      parseEntries bs chk off acc es n = .ok (fin, es') →
      ∃ l, specEntryList bs chk off n = some l ∧
        es' = l.foldl (fun e kv => odInsert e kv.1 kv.2) es := by
  intro n
  induction n with
  | zero =>
    intro off acc fin es es' h
    simp only [parseEntries] at h
    have hpair : (acc, es) = (fin, es') := Except.ok.inj h
    exact ⟨[], rfl, by simp [← (Prod.mk.injEq _ _ _ _ ▸ hpair).2]⟩
  | succ m ih =>
    intro off acc fin es es' h
    simp only [parseEntries] at h
    cases h1 : readDword bs off with
    | none => rw [h1] at h; simp at h
    | some w1 =>
      rw [h1] at h
      cases h2 : readDword bs (off + 4) with
      | none => rw [h2] at h; simp at h
      | some w2 =>
        rw [h2] at h
        obtain ⟨l, hl, hes⟩ := ih _ _ _ _ _ h
        refine ⟨((w1 ^^^ chk) >>> 16, ⟨(w1 ^^^ chk) &&& 0xFFFF, w2 ^^^ chk⟩) :: l, ?_, ?_⟩
        · simp only [specEntryList, specEntry, h1, h2, hl]
        · simpa using hes

/-- The scan completes without a match (leaving `start_of_header = 0`)
exactly when every scanned dword is readable and none XOR-decodes to
"DanS". -/
theorem scanDans_ok_zero_iff (bs : List Nat) (chk : Nat) :
    ∀ (n off : Nat), 0 < off →
      (scanDans bs chk off n = .ok 0 ↔
        ∀ i < n, ∃ w, readDword bs (off + 4 * i) = some w ∧ w ^^^ chk ≠ dansMagic) := by
  intro n
  induction n with
  | zero =>
    intro off _
    simp [scanDans]
  | succ m ih =>
    intro off hoff
    constructor
    · intro h i hi
      simp only [scanDans] at h
      cases h1 : readDword bs off with
      | none => rw [h1] at h; simp at h
      | some w =>
        simp only [h1] at h
        by_cases hd : w ^^^ chk = dansMagic
        · rw [if_pos hd] at h
          exact absurd (Except.ok.inj h).symm (by omega)
        · rw [if_neg hd] at h
          match i with
          | 0 => exact ⟨w, by simpa using h1, hd⟩
          | j + 1 =>
            obtain ⟨wj, hwj, hne⟩ :=
              ((ih (off + 4) (by omega)).1 h) j (by omega)
            exact ⟨wj, by rw [show off + 4 * (j + 1) = off + 4 + 4 * j by omega]; exact hwj, hne⟩
    · intro hall
      obtain ⟨w, hw, hne⟩ := hall 0 (by omega)
      simp only [Nat.mul_zero, Nat.add_zero] at hw
      simp only [scanDans, hw, if_neg hne]
      refine (ih (off + 4) (by omega)).2 ?_
      intro i hi
      obtain ⟨wi, hwi, hni⟩ := hall (i + 1) (by omega)
      exact ⟨wi, by rw [show off + 4 + 4 * i = off + 4 * (i + 1) by omega]; exact hwi, hni⟩

/-- When the scan succeeds with a nonzero offset, that offset is the
first scanned position whose dword XOR-decodes to "DanS": all earlier
scanned dwords are readable and decode to something else. -/
theorem scanDans_ok_first (bs : List Nat) (chk : Nat) :
    ∀ (n off s : Nat), 0 < off → scanDans bs chk off n = .ok s → s ≠ 0 →
      ∃ i < n, s = off + 4 * i ∧
        (∃ w, readDword bs s = some w ∧ w ^^^ chk = dansMagic) ∧
        ∀ j < i, ∃ wj, readDword bs (off + 4 * j) = some wj ∧ wj ^^^ chk ≠ dansMagic := by
  intro n
  induction n with
  | zero =>
    intro off s _ h hs
    simp only [scanDans] at h
    exact absurd (Except.ok.inj h).symm hs
  | succ m ih =>
    intro off s hoff h hs
    simp only [scanDans] at h
    cases h1 : readDword bs off with
    | none => rw [h1] at h; simp at h
    | some w =>
      simp only [h1] at h
      by_cases hd : w ^^^ chk = dansMagic
      · rw [if_pos hd] at h
        have hso : off = s := Except.ok.inj h
        refine ⟨0, by omega, by omega, ⟨w, by rw [← hso]; exact h1, hd⟩, ?_⟩
        intro j hj
        omega
      · rw [if_neg hd] at h
        obtain ⟨i, hi, hsi, hmatch, hbefore⟩ := ih (off + 4) s (by omega) h hs
        refine ⟨i + 1, by omega, by omega, hmatch, ?_⟩
        intro j hj
        match j with
        | 0 => exact ⟨w, by simpa using h1, hd⟩
        | j' + 1 =>
          obtain ⟨wj, hwj, hnj⟩ := hbefore j' (by omega)
          exact ⟨wj, by rw [show off + 4 * (j' + 1) = off + 4 + 4 * j' by omega]; exact hwj, hnj⟩

/-- `findRich` returns `none` exactly when the "Rich" byte sequence
occurs nowhere in the searched bytes. -/
theorem findRich_none_iff :
    ∀ (l : List Nat) (i : Nat), (findRich l i = none ↔ richAbsent l) := by
  intro l
  induction l with
  | nil =>
    intro i
    simp only [findRich, richAbsent]
    constructor
    · intro _ j
      simp [richMagic]
    · intro _; trivial
  | cons b rest ih =>
    intro i
    simp only [findRich]
    by_cases hm : (b :: rest).take 4 = richMagic
    · rw [if_pos hm]
      constructor
      · intro h; simp at h
      · intro h
        exact absurd (by simpa using hm) (h 0)
    · rw [if_neg hm]
      rw [ih (i + 1)]
      constructor
      · intro h j
        match j with
        | 0 => simpa using hm
        | j' + 1 => simpa using h j'
      · intro h j
        simpa using h (j + 1)

/-- Inversion for `locateStartAux`: a successful locate means either the
default-offset word decoded to "DanS" (start = 0x80), or it did not and
the scan found a first nonzero match. -/
theorem locateStartAux_ok (bs : List Nat) (lfa chk s : Nat)
    (h : locateStartAux bs lfa chk = .ok s) :
    ∃ w80, readDword bs 0x80 = some w80 ∧
      ((w80 ^^^ chk = dansMagic ∧ s = 0x80) ∨
       (w80 ^^^ chk ≠ dansMagic ∧ s ≠ 0 ∧
         scanDans bs chk 0x40 ((lfa - 0x40) / 4) = .ok s)) := by
  unfold locateStartAux at h
  cases h80 : readDword bs 0x80 with
  | none => rw [h80] at h; simp at h
  | some w80 =>
    simp only [h80] at h
    by_cases hd : w80 ^^^ chk = dansMagic
    · rw [if_pos hd] at h
      exact ⟨w80, rfl, Or.inl ⟨hd, (Except.ok.inj h).symm⟩⟩
    · rw [if_neg hd] at h
      refine ⟨w80, rfl, Or.inr ⟨hd, ?_⟩⟩
      cases hscan : scanDans bs chk 0x40 ((lfa - 0x40) / 4) with
      | error e => rw [hscan] at h; simp at h
      | ok s' =>
        simp only [hscan] at h
        cases s' with
        | zero => simp at h
        | succ n =>
          have hsn : n + 1 = s := by
            simpa using h
          subst hsn
          exact ⟨by omega, rfl⟩

/-- Unfolding `decode` once all four locate steps have succeeded. -/
theorem decode_reached (bs : List Nat) (w r chk s : Nat)
    (h1 : readDword bs 0x3C = some w)
    (h2 : findRich (bs.take (w % 65536)) 0 = some r)
    (h3 : readDword bs (r + 4) = some chk)
    (h4 : locateStartAux bs (w % 65536) chk = .ok s) :
    decode bs =
      match parseEntries bs chk (s + 0x10)
          (byteChecksumAux ((bs.take (w % 65536)).take s) 0 s) []
          ((r - s - 0x10) / 8) with
      | .error e => .error e
      | .ok (fin, es) => .ok ⟨es, fin == chk⟩ := by
  unfold decode
  simp only [h1, h2, h3, h4]

/-- Inversion of a successful `decode`: every locate step succeeded and
the entry loop produced the result's entries and final accumulator. -/
theorem decode_ok_inv (bs : List Nat) (h : RichHeader)
    (hd : decode bs = .ok h) :
    ∃ w r chk s fin,
      readDword bs 0x3C = some w ∧
      findRich (bs.take (w % 65536)) 0 = some r ∧
      readDword bs (r + 4) = some chk ∧
      locateStartAux bs (w % 65536) chk = .ok s ∧
      parseEntries bs chk (s + 0x10)
        (byteChecksumAux ((bs.take (w % 65536)).take s) 0 s) []
        ((r - s - 0x10) / 8) = .ok (fin, h.entries) ∧
      h.checksum_matches = (fin == chk) := by
  unfold decode at hd
  cases h1 : readDword bs 0x3C with
  | none => rw [h1] at hd; simp at hd
  | some w =>
    simp only [h1] at hd
    cases h2 : findRich (bs.take (w % 65536)) 0 with
    | none => rw [h2] at hd; simp at hd
    | some r =>
      simp only [h2] at hd
      cases h3 : readDword bs (r + 4) with
      | none => rw [h3] at hd; simp at hd
      | some chk =>
        simp only [h3] at hd
        cases h4 : locateStartAux bs (w % 65536) chk with
        | error e => rw [h4] at hd; simp at hd
        | ok s =>
          simp only [h4] at hd
          cases h5 : parseEntries bs chk (s + 0x10)
              (byteChecksumAux ((bs.take (w % 65536)).take s) 0 s) []
              ((r - s - 0x10) / 8) with
          | error e => rw [h5] at hd; simp at hd
          | ok p =>
            simp only [h5] at hd
            obtain ⟨fin, es⟩ := p
            have hh : (⟨es, fin == chk⟩ : RichHeader) = h := by
              simpa using hd
            refine ⟨w, r, chk, s, fin, rfl, h2, h3, h4, ?_, ?_⟩
            · rw [← hh]; exact h5
            · rw [← hh]

/-! Ordered-dictionary lemmas -/

theorem odLookup_odInsert (k j : Nat) (v : Entry) :
    ∀ es, odLookup (odInsert es k v) j =
      if k = j then some v else odLookup es j := by
  intro es
  induction es with
  | nil => simp [odInsert, odLookup]
  | cons kv rest ih =>
    obtain ⟨a, b⟩ := kv
    by_cases hak : a = k
    · subst hak
      have hins : odInsert ((a, b) :: rest) a v = (a, v) :: rest := by
        simp [odInsert]
      rw [hins]
      by_cases haj : a = j
      · subst haj
        simp [odLookup]
      · simp [odLookup, haj]
    · have hins : odInsert ((a, b) :: rest) k v = (a, b) :: odInsert rest k v := by
        simp [odInsert, hak]
      rw [hins]
      by_cases haj : a = j
      · subst haj
        have hkj : ¬ k = a := fun hc => hak hc.symm
        simp [odLookup, hkj]
      · simp [odLookup, haj, ih]

theorem odLookup_foldl (l : List (Nat × Entry)) :
    ∀ (es : List (Nat × Entry)) (k : Nat),
      odLookup (l.foldl (fun e kv => odInsert e kv.1 kv.2) es) k =
        match lastWithKey l k with
        | some v => some v
        | none => odLookup es k := by
  induction l with
  | nil => intro es k; simp [lastWithKey]
  | cons kv rest ih =>
    intro es k
    obtain ⟨a, b⟩ := kv
    simp only [List.foldl_cons, ih, lastWithKey]
    cases lastWithKey rest k with
    | some v => simp
    | none =>
      simp only []
      rw [odLookup_odInsert]
      by_cases hak : a = k
      · simp [hak]
      · simp [hak]

theorem odLookup_foldl_nil (l : List (Nat × Entry)) (k : Nat) :
    odLookup (l.foldl (fun e kv => odInsert e kv.1 kv.2) []) k = lastWithKey l k := by
  rw [odLookup_foldl]
  cases lastWithKey l k with
  | some v => rfl
  | none => rfl

theorem mem_map_fst_odInsert (k x : Nat) (v : Entry) :
    ∀ es, x ∈ (odInsert es k v).map Prod.fst ↔ x ∈ es.map Prod.fst ∨ x = k := by
  intro es
  induction es with
  | nil => simp [odInsert]
  | cons kv rest ih =>
    obtain ⟨a, b⟩ := kv
    by_cases hak : a = k
    · subst hak
      have hins : odInsert ((a, b) :: rest) a v = (a, v) :: rest := by
        simp [odInsert]
      rw [hins]
      simp only [List.map_cons, List.mem_cons]
      tauto
    · have hins : odInsert ((a, b) :: rest) k v = (a, b) :: odInsert rest k v := by
        simp [odInsert, hak]
      rw [hins]
      simp only [List.map_cons, List.mem_cons, ih]
      tauto

theorem nodup_odInsert (k : Nat) (v : Entry) :
    ∀ es, (es.map Prod.fst).Nodup → ((odInsert es k v).map Prod.fst).Nodup := by
  intro es
  induction es with
  | nil => intro _; simp [odInsert]
  | cons kv rest ih =>
    obtain ⟨a, b⟩ := kv
    intro hnd
    simp only [List.map_cons, List.nodup_cons] at hnd
    by_cases hak : a = k
    · subst hak
      have hins : odInsert ((a, b) :: rest) a v = (a, v) :: rest := by
        simp [odInsert]
      rw [hins]
      simp only [List.map_cons, List.nodup_cons]
      exact hnd
    · have hins : odInsert ((a, b) :: rest) k v = (a, b) :: odInsert rest k v := by
        simp [odInsert, hak]
      rw [hins]
      simp only [List.map_cons, List.nodup_cons]
      refine ⟨?_, ih hnd.2⟩
      rw [mem_map_fst_odInsert]
      rintro (hx | hx)
      · exact hnd.1 hx
      · exact hak hx

theorem nodup_foldl_odInsert (l : List (Nat × Entry)) :
    ∀ es, (es.map Prod.fst).Nodup →
      (((l.foldl (fun e kv => odInsert e kv.1 kv.2) es)).map Prod.fst).Nodup := by
  induction l with
  | nil => intro es h; simpa using h
  | cons kv rest ih =>
    intro es h
    simp only [List.foldl_cons]
    exact ih _ (nodup_odInsert _ _ _ h)

/-- The entries of a successfully decoded header have pairwise distinct
keys (the OrderedDict invariant). -/
theorem decode_nodup_keys (bs : List Nat) (h : RichHeader)
    (hd : decode bs = .ok h) : (h.entries.map Prod.fst).Nodup := by
  obtain ⟨w, r, chk, s, fin, _, _, _, _, h5, _⟩ := decode_ok_inv bs h hd
  obtain ⟨l, _, hes⟩ := parseEntries_ok_spec bs chk _ _ _ _ _ _ h5
  rw [hes]
  exact nodup_foldl_odInsert l [] (by simp)

theorem odLookup_eq_none_iff (k : Nat) :
    ∀ es : List (Nat × Entry), odLookup es k = none ↔ k ∉ es.map Prod.fst := by
  intro es
  induction es with
  | nil => simp [odLookup]
  | cons kv rest ih =>
    obtain ⟨a, b⟩ := kv
    simp only [odLookup, List.map_cons, List.mem_cons]
    by_cases hak : a = k
    · subst hak; simp
    · simp only [if_neg hak, ih]
      constructor
      · intro h hk
        rcases hk with hk | hk
        · exact hak hk.symm
        · exact h hk
      · intro h hk
        exact h (Or.inr hk)

theorem odLookup_eq_some_iff_mem (k : Nat) (v : Entry) :
    ∀ es : List (Nat × Entry), (es.map Prod.fst).Nodup →
      (odLookup es k = some v ↔ (k, v) ∈ es) := by
  intro es
  induction es with
  | nil => intro _; simp [odLookup]
  | cons kv rest ih =>
    obtain ⟨a, b⟩ := kv
    intro hnd
    simp only [List.map_cons, List.nodup_cons] at hnd
    by_cases hak : a = k
    · subst hak
      have hlk : odLookup ((a, b) :: rest) a = some b := by simp [odLookup]
      rw [hlk]
      constructor
      · intro hv
        have hbv : b = v := Option.some.inj hv
        subst hbv
        exact List.mem_cons_self _ _
      · intro hv
        rcases List.mem_cons.1 hv with hv | hv
        · have hvb : v = b := congrArg Prod.snd hv
          rw [hvb]
        · exact absurd (List.mem_map_of_mem Prod.fst hv) hnd.1
    · have hlk : odLookup ((a, b) :: rest) k = odLookup rest k := by
        simp [odLookup, hak]
      rw [hlk, ih hnd.2]
      constructor
      · exact fun hv => List.mem_cons_of_mem _ hv
      · intro hv
        rcases List.mem_cons.1 hv with hv | hv
        · exact absurd (congrArg Prod.fst hv).symm hak
        · exact hv

/-- `specEntryList` produces exactly `n` entries when it succeeds. -/
theorem specEntryList_length (bs : List Nat) (chk : Nat) :
    ∀ (n off : Nat) (l : List (Nat × Entry)),
      specEntryList bs chk off n = some l → l.length = n := by
  intro n
  induction n with
  | zero =>
    intro off l h
    simp only [specEntryList] at h
    simp [← Option.some.inj h]
  | succ m ih =>
    intro off l h
    simp only [specEntryList] at h
    cases he : specEntry bs chk off with
    | none => rw [he] at h; simp at h
    | some e =>
      rw [he] at h
      cases hl : specEntryList bs chk (off + 8) m with
      | none => rw [hl] at h; simp at h
      | some l' =>
        rw [hl] at h
        have := ih _ _ hl
        simp [← Option.some.inj h, this]

/-- `scanDans` never fails with `headerNotFound`. -/
theorem scanDans_ne_headerNotFound (bs : List Nat) (chk : Nat) :
    ∀ (n off : Nat), scanDans bs chk off n ≠ .error .headerNotFound := by
  intro n
  induction n with
  | zero => intro off h; simp [scanDans] at h
  | succ m ih =>
    intro off h
    simp only [scanDans] at h
    cases h1 : readDword bs off with
    | none => rw [h1] at h; exact absurd (Except.error.inj h) (by decide)
    | some w =>
      simp only [h1] at h
      by_cases hd : w ^^^ chk = dansMagic
      · rw [if_pos hd] at h; simp at h
      · rw [if_neg hd] at h; exact ih _ h

/-- Inversion of `locateStartAux` failing with `headerNotFound`: the
default-offset word was readable but did not decode to "DanS", and the
scan completed without a match. -/
theorem locateStartAux_headerNotFound (bs : List Nat) (lfa chk : Nat)
    (h : locateStartAux bs lfa chk = .error .headerNotFound) :
    ∃ w80, readDword bs 0x80 = some w80 ∧ w80 ^^^ chk ≠ dansMagic ∧
      scanDans bs chk 0x40 ((lfa - 0x40) / 4) = .ok 0 := by
  unfold locateStartAux at h
  cases h80 : readDword bs 0x80 with
  | none => rw [h80] at h; exact absurd (Except.error.inj h) (by decide)
  | some w80 =>
    simp only [h80] at h
    by_cases hd : w80 ^^^ chk = dansMagic
    · rw [if_pos hd] at h; simp at h
    · rw [if_neg hd] at h
      cases hscan : scanDans bs chk 0x40 ((lfa - 0x40) / 4) with
      | error e =>
        simp only [hscan] at h
        have he : e = .headerNotFound := Except.error.inj h
        exact absurd (he ▸ hscan) (scanDans_ne_headerNotFound bs chk _ _)
      | ok s =>
        simp only [hscan] at h
        cases s with
        | zero => exact ⟨w80, rfl, hd, rfl⟩
        | succ n => simp at h

/-! ### Claims -/

/-- C1 (counterexample): on `B4` the decoder locates `header_start =
0x80`, yet its checksum accumulator sums only the bytes of
`data[:lfa_new] = B4[:0x10]` (value 0x670), not the bytes at file
indices `0` to `header_start - 1` as the claim states (value 0x671,
because of the nonzero file byte at index 0x20 ≥ lfa_new); decode still
succeeds. -/
theorem c1_counterexample :
    readDword B4 0x3C = some 0x10 ∧
    locateStartAux B4 (0x10 % 65536) 0 = .ok 0x80 ∧
    decode B4 = .ok ⟨[], false⟩ ∧
    byteChecksumAux ((B4.take (0x10 % 65536)).take 0x80) 0 0x80 = 0x670 ∧
    specByteSum (B4.take 0x80) 0 0x80 = 0x671 ∧
    (0x670 : Nat) ≠ 0x671 :=
  ⟨by rfl, by rfl, by rfl, by rfl, by rfl, by decide⟩

/-- C1 (amended): whenever decode locates the header start, the
recomputed accumulator starts at `header_start` and, for each byte of
`data[:lfa_new][:header_start]` (not of the whole file prefix
`[0, header_start)`) at index `i`, skips indices `0x3C ≤ i < 0x40` and
otherwise adds the 32-bit rotate-left of the byte by `i % 32`, reducing
modulo `2^32` after each addition; decode's result is computed from
exactly this accumulator. -/
theorem c1_amended_byte_accumulator (bs : List Nat) (w r chk s : Nat)
    (h1 : readDword bs 0x3C = some w)
    (h2 : findRich (bs.take (w % 65536)) 0 = some r)
    (h3 : readDword bs (r + 4) = some chk)
    (h4 : locateStartAux bs (w % 65536) chk = .ok s)
    (hbytes : ∀ b ∈ bs, b < 256) :
    byteChecksumAux ((bs.take (w % 65536)).take s) 0 s =
      specByteSum ((bs.take (w % 65536)).take s) 0 s ∧
    decode bs =
      match parseEntries bs chk (s + 0x10)
          (specByteSum ((bs.take (w % 65536)).take s) 0 s) []
          ((r - s - 0x10) / 8) with
      | .error e => .error e
      | .ok (fin, es) => .ok ⟨es, fin == chk⟩ := by
  have hb : ∀ b ∈ (bs.take (w % 65536)).take s, b < 256 := fun b hbm =>
    hbytes b (List.take_subset _ _ (List.take_subset _ _ hbm))
  have heq := byteChecksumAux_eq_specByteSum ((bs.take (w % 65536)).take s) 0 s hb
  refine ⟨heq, ?_⟩
  rw [decode_reached bs w r chk s h1 h2 h3 h4, heq]

/-- C1 (witness): the amended statement instantiated on the well-formed
input `B0`. -/
theorem c1_witness :
    byteChecksumAux ((B0.take (0xB0 % 65536)).take 0x80) 0 0x80 =
      specByteSum ((B0.take (0xB0 % 65536)).take 0x80) 0 0x80 ∧
    decode B0 =
      match parseEntries B0 0 (0x80 + 0x10)
          (specByteSum ((B0.take (0xB0 % 65536)).take 0x80) 0 0x80) []
          ((0x98 - 0x80 - 0x10) / 8) with
      | .error e => .error e
      | .ok (fin, es) => .ok ⟨es, fin == 0⟩ :=
  c1_amended_byte_accumulator B0 0xB0 0x98 0 0x80
    (by rfl) (by rfl) (by rfl) (by rfl) (by decide)

/-- C2: on every successful decode, the entry table is read starting
0x10 bytes past the header start, exactly
`(rich_location - header_start - 0x10) / 8` entries are decoded with
`tool_id = (word1 XOR checksum) >> 16`,
`build_version = (word1 XOR checksum) & 0xFFFF`,
`use_count = word2 XOR checksum`, and the result's entries are that list
folded by keyed insertion, so lookup by tool id yields the
last-decoded pair. -/
theorem c2_entries (bs : List Nat) (w r chk s : Nat) (h : RichHeader)
    (h1 : readDword bs 0x3C = some w)
    (h2 : findRich (bs.take (w % 65536)) 0 = some r)
    (h3 : readDword bs (r + 4) = some chk)
    (h4 : locateStartAux bs (w % 65536) chk = .ok s)
    (_hge : s + 0x10 ≤ r)
    (hd : decode bs = .ok h) :
    ∃ l, specEntryList bs chk (s + 0x10) ((r - s - 0x10) / 8) = some l ∧
      l.length = (r - s - 0x10) / 8 ∧
      h.entries = l.foldl (fun e kv => odInsert e kv.1 kv.2) [] ∧
      ∀ k, odLookup h.entries k = lastWithKey l k := by
  have hr := decode_reached bs w r chk s h1 h2 h3 h4
  rw [hd] at hr
  cases h5 : parseEntries bs chk (s + 0x10)
      (byteChecksumAux ((bs.take (w % 65536)).take s) 0 s) []
      ((r - s - 0x10) / 8) with
  | error e => rw [h5] at hr; simp at hr
  | ok p =>
    rw [h5] at hr
    obtain ⟨fin, es⟩ := p
    have hh : h = ⟨es, fin == chk⟩ := by simpa using hr
    obtain ⟨l, hl, hes⟩ := parseEntries_ok_spec bs chk _ _ _ _ _ _ h5
    refine ⟨l, hl, specEntryList_length bs chk _ _ _ hl, ?_, ?_⟩
    · rw [hh]
      exact hes
    · intro k
      rw [hh]
      show odLookup es k = lastWithKey l k
      rw [hes]
      exact odLookup_foldl_nil l k

/-- C2 (witness): instantiated on `B0`, whose single entry decodes to
tool id 1, build version 2, use count 5. -/
theorem c2_witness :
    ∃ l, specEntryList B0 0 (0x80 + 0x10) ((0x98 - 0x80 - 0x10) / 8) = some l ∧
      l.length = (0x98 - 0x80 - 0x10) / 8 ∧
      (⟨[(1, ⟨2, 5⟩)], false⟩ : RichHeader).entries =
        l.foldl (fun e kv => odInsert e kv.1 kv.2) [] ∧
      ∀ k, odLookup (⟨[(1, ⟨2, 5⟩)], false⟩ : RichHeader).entries k = lastWithKey l k :=
  c2_entries B0 0xB0 0x98 0 0x80 ⟨[(1, ⟨2, 5⟩)], false⟩
    (by rfl) (by rfl) (by rfl) (by rfl) (by omega) (by rfl)

/-- C3: each entry step of the decoding loop adds to the accumulator the
full 32-bit rotate-left of the XOR-decoded id word by
`use_count % 32` (where `use_count` is the decoded count word), reduced
modulo `2^32` after the addition. -/
theorem c3_entry_checksum_update (bs : List Nat) (chk off acc : Nat)
    (es : List (Nat × Entry)) (n w1 w2 : Nat)
    (h1 : readDword bs off = some w1) (h2 : readDword bs (off + 4) = some w2) :
    parseEntries bs chk off acc es (n + 1) =
      parseEntries bs chk (off + 8)
        ((acc + rotl32 (w1 ^^^ chk) ((w2 ^^^ chk) % 32)) % 4294967296)
        (odInsert es ((w1 ^^^ chk) >>> 16) ⟨(w1 ^^^ chk) &&& 0xFFFF, w2 ^^^ chk⟩) n := by
  simp only [parseEntries, h1, h2]
  congr 1
  rw [rotl32]
  omega

/-- C3 (witness): one concrete entry step. -/
theorem c3_witness :
    parseEntries [1, 0, 0, 0, 2, 0, 0, 0] 0 0 0 [] 1 =
      parseEntries [1, 0, 0, 0, 2, 0, 0, 0] 0 8
        ((0 + rotl32 (1 ^^^ 0) ((2 ^^^ 0) % 32)) % 4294967296)
        (odInsert [] ((1 ^^^ 0) >>> 16) ⟨(1 ^^^ 0) &&& 0xFFFF, 2 ^^^ 0⟩) 0 :=
  c3_entry_checksum_update [1, 0, 0, 0, 2, 0, 0, 0] 0 0 0 [] 0 1 2 (by rfl) (by rfl)

/-- C4: a checksum mismatch is not an error: once the locate steps and
the entry loop succeed, decode returns a complete result whose
`checksum_matches` is true exactly when the final accumulator equals the
stored checksum read at `rich_location + 4`. -/
theorem c4_checksum_mismatch_not_error (bs : List Nat) (w r chk s fin : Nat)
    (es : List (Nat × Entry))
    (h1 : readDword bs 0x3C = some w)
    (h2 : findRich (bs.take (w % 65536)) 0 = some r)
    (h3 : readDword bs (r + 4) = some chk)
    (h4 : locateStartAux bs (w % 65536) chk = .ok s)
    (h5 : parseEntries bs chk (s + 0x10)
        (byteChecksumAux ((bs.take (w % 65536)).take s) 0 s) []
        ((r - s - 0x10) / 8) = .ok (fin, es)) :
    decode bs = .ok ⟨es, fin == chk⟩ ∧ ((fin == chk) = true ↔ fin = chk) := by
  constructor
  · rw [decode_reached bs w r chk s h1 h2 h3 h4, h5]
  · simp

/-- C4 (witness): on `B0` the recomputed checksum 0x2000C0 differs from
the stored checksum 0, and decode still returns a complete result with
`checksum_matches = false`. -/
theorem c4_witness :
    decode B0 = .ok ⟨[(1, ⟨2, 5⟩)], ((0x2000C0 : Nat) == 0)⟩ ∧
    (((0x2000C0 : Nat) == 0) = true ↔ (0x2000C0 : Nat) = 0) :=
  c4_checksum_mismatch_not_error B0 0xB0 0x98 0 0x80 0x2000C0 [(1, ⟨2, 5⟩)]
    (by rfl) (by rfl) (by rfl) (by rfl) (by rfl)

/-- C7: the decoder fails with `truncatedInput` — a kind distinct from
`headerNotFound` — when fewer than 0x40 bytes are available, when a
required entry-phase read runs past the available length, and when the
stored-checksum read past the "Rich" magic runs past the available
length. -/
theorem c7_truncated_input :
    (∀ bs : List Nat, bs.length < 0x40 → decode bs = .error .truncatedInput) ∧
    (∀ (bs : List Nat) (chk off acc n : Nat) (es : List (Nat × Entry)),
      1 ≤ n → bs.length < off + 8 * n →
      parseEntries bs chk off acc es n = .error .truncatedInput) ∧
    (∀ (bs : List Nat) (w r : Nat),
      readDword bs 0x3C = some w → findRich (bs.take (w % 65536)) 0 = some r →
      bs.length < r + 8 → decode bs = .error .truncatedInput) ∧
    DecodeError.truncatedInput ≠ DecodeError.headerNotFound := by
  refine ⟨?_, ?_, ?_, by decide⟩
  · intro bs h
    have h1 : readDword bs 0x3C = none := by
      unfold readDword
      rw [if_neg (by omega)]
    unfold decode
    simp only [h1]
  · intro bs chk off acc n es hn hlen
    exact parseEntries_truncated bs chk n off acc es hn hlen
  · intro bs w r h1 h2 hlen
    have h3 : readDword bs (r + 4) = none := by
      unfold readDword
      rw [if_neg (by omega)]
    unfold decode
    simp only [h1, h2, h3]

/-- C7 (witness): a short input, a truncated entry-phase read, and a
truncated stored-checksum read. -/
theorem c7_witness :
    decode B9 = .error .truncatedInput ∧
    parseEntries [] 0 0 0 [] 1 = .error .truncatedInput ∧
    decode B6 = .error .truncatedInput :=
  ⟨c7_truncated_input.1 B9 (by decide),
   c7_truncated_input.2.1 [] 0 0 0 1 [] (by decide) (by decide),
   c7_truncated_input.2.2.1 B6 0x60 0x50 (by rfl) (by rfl) (by decide)⟩

/-- C9 (counterexample): on `B1` decode succeeds while the located
header start (0x80) is greater than the "Rich" magic offset (0x20). -/
theorem c9_counterexample :
    decode B1 = .ok ⟨[], false⟩ ∧
    readDword B1 0x3C = some 0x90 ∧
    findRich (B1.take (0x90 % 65536)) 0 = some 0x20 ∧
    locateStartAux B1 (0x90 % 65536) 0 = .ok 0x80 ∧
    ¬(0x80 < 0x20) :=
  ⟨by rfl, by rfl, by rfl, by rfl, by decide⟩

/-- C9 (amended): on every successful decode whose entry table is
non-empty, the located header start is strictly below the "Rich" magic
offset. -/
theorem c9_amended_start_lt_rich (bs : List Nat) (w r chk s : Nat) (h : RichHeader)
    (h1 : readDword bs 0x3C = some w)
    (h2 : findRich (bs.take (w % 65536)) 0 = some r)
    (h3 : readDword bs (r + 4) = some chk)
    (h4 : locateStartAux bs (w % 65536) chk = .ok s)
    (hd : decode bs = .ok h) (hne : h.entries ≠ []) :
    s < r := by
  by_contra hsr
  have ht : (r - s - 0x10) / 8 = 0 := by omega
  have hr := decode_reached bs w r chk s h1 h2 h3 h4
  rw [ht] at hr
  simp only [parseEntries] at hr
  rw [hd] at hr
  have hh := Except.ok.inj hr
  rw [hh] at hne
  exact hne rfl

/-- C9 (witness): the amended statement on `B0` (one entry, header start
0x80 before "Rich" at 0x98). -/
theorem c9_witness :
    (0x80 : Nat) < 0x98 ∧ decode B0 = .ok ⟨[(1, ⟨2, 5⟩)], false⟩ :=
  ⟨c9_amended_start_lt_rich B0 0xB0 0x98 0 0x80 ⟨[(1, ⟨2, 5⟩)], false⟩
    (by rfl) (by rfl) (by rfl) (by rfl) (by rfl) (by simp),
   by rfl⟩

/-- C10: when the "Rich" magic lies fewer than 0x10 bytes past the
located header start, decode does not fail: the entry count truncates to
zero, the entries mapping is empty, and `checksum_matches` is computed
from the byte-accumulation phase alone. -/
theorem c10_short_gap_ok (bs : List Nat) (w r chk s : Nat)
    (h1 : readDword bs 0x3C = some w)
    (h2 : findRich (bs.take (w % 65536)) 0 = some r)
    (h3 : readDword bs (r + 4) = some chk)
    (h4 : locateStartAux bs (w % 65536) chk = .ok s)
    (hlt : r < s + 0x10) :
    decode bs = .ok ⟨[], byteChecksumAux ((bs.take (w % 65536)).take s) 0 s == chk⟩ := by
  have ht : (r - s - 0x10) / 8 = 0 := by omega
  rw [decode_reached bs w r chk s h1 h2 h3 h4, ht]
  rfl

/-- C10 (witness): on `B1` ("Rich" at 0x20, header start 0x80) decode
returns an empty entry table and a checksum flag from the byte phase. -/
theorem c10_witness :
    decode B1 = .ok ⟨[], byteChecksumAux ((B1.take (0x90 % 65536)).take 0x80) 0 0x80 == 0⟩ :=
  c10_short_gap_ok B1 0x90 0x20 0 0x80 (by rfl) (by rfl) (by rfl) (by rfl) (by decide)

/-- C5 (counterexample): on `B3` the "Rich" magic is found (offset 0),
no candidate offset XOR-decodes to "DanS" (the scan range is empty and
the default-offset word at 0x80 is not even readable), yet decode fails
with `truncatedInput`, not `headerNotFound`. -/
theorem c5_counterexample :
    decode B3 = .error .truncatedInput ∧
    readDword B3 0x3C = some 0x20 ∧
    findRich (B3.take (0x20 % 65536)) 0 = some 0 ∧
    readDword B3 (0 + 4) = some 0 ∧
    ((0x20 % 65536 - 0x40) / 4 = 0) ∧
    readDword B3 0x80 = none ∧
    DecodeError.truncatedInput ≠ DecodeError.headerNotFound :=
  ⟨by rfl, by rfl, by rfl, by rfl, by decide, by rfl, by decide⟩

/-- C5 (amended): decode fails with `headerNotFound` — a kind distinct
from `truncatedInput` — iff the PE-header pointer is readable and either
"Rich" does not occur in the first `lfa_new` bytes, or "Rich" is found,
its stored checksum and the default-offset word are readable, the
default-offset word does not XOR-decode to "DanS", and every scanned
dword (offsets `0x40 + 4i` for `i < (lfa_new - 0x40) / 4`) is readable
and does not XOR-decode to "DanS". -/
theorem c5_amended_headerNotFound_iff (bs : List Nat) :
    (decode bs = .error .headerNotFound ↔
      ∃ w, readDword bs 0x3C = some w ∧
        (richAbsent (bs.take (w % 65536)) ∨
          ∃ r chk w80, findRich (bs.take (w % 65536)) 0 = some r ∧
            readDword bs (r + 4) = some chk ∧
            readDword bs 0x80 = some w80 ∧ w80 ^^^ chk ≠ dansMagic ∧
            ∀ i < (w % 65536 - 0x40) / 4,
              ∃ wi, readDword bs (0x40 + 4 * i) = some wi ∧ wi ^^^ chk ≠ dansMagic)) ∧
    DecodeError.headerNotFound ≠ DecodeError.truncatedInput := by
  refine ⟨⟨?_, ?_⟩, by decide⟩
  · intro hd
    unfold decode at hd
    cases h1 : readDword bs 0x3C with
    | none => rw [h1] at hd; exact absurd (Except.error.inj hd) (by decide)
    | some w =>
      simp only [h1] at hd
      refine ⟨w, rfl, ?_⟩
      cases h2 : findRich (bs.take (w % 65536)) 0 with
      | none => exact Or.inl ((findRich_none_iff _ 0).1 h2)
      | some r =>
        simp only [h2] at hd
        cases h3 : readDword bs (r + 4) with
        | none => rw [h3] at hd; exact absurd (Except.error.inj hd) (by decide)
        | some chk =>
          simp only [h3] at hd
          cases h4 : locateStartAux bs (w % 65536) chk with
          | error e =>
            simp only [h4] at hd
            have he : e = .headerNotFound := Except.error.inj hd
            obtain ⟨w80, h80, hne, hscan⟩ :=
              locateStartAux_headerNotFound bs (w % 65536) chk (he ▸ h4)
            refine Or.inr ⟨r, chk, w80, rfl, h3, h80, hne, ?_⟩
            exact (scanDans_ok_zero_iff bs chk ((w % 65536 - 0x40) / 4) 0x40 (by omega)).1 hscan
          | ok s =>
            simp only [h4] at hd
            cases h5 : parseEntries bs chk (s + 0x10)
                (byteChecksumAux ((bs.take (w % 65536)).take s) 0 s) []
                ((r - s - 0x10) / 8) with
            | error e =>
              simp only [h5] at hd
              have he : e = .headerNotFound := Except.error.inj hd
              exact absurd (he ▸ h5) (parseEntries_ne_headerNotFound bs chk _ _ _ _)
            | ok p =>
              simp only [h5] at hd
              obtain ⟨fin, es⟩ := p
              simp at hd
  · rintro ⟨w, h1, habs | ⟨r, chk, w80, h2, h3, h80, hne, hall⟩⟩
    · have h2 : findRich (bs.take (w % 65536)) 0 = none :=
        (findRich_none_iff _ 0).2 habs
      unfold decode
      simp only [h1, h2]
    · have hscan : scanDans bs chk 0x40 ((w % 65536 - 0x40) / 4) = .ok 0 :=
        (scanDans_ok_zero_iff bs chk ((w % 65536 - 0x40) / 4) 0x40 (by omega)).2 hall
      have h4 : locateStartAux bs (w % 65536) chk = .error .headerNotFound := by
        unfold locateStartAux
        simp only [h80, if_neg hne, hscan]
      unfold decode
      simp only [h1, h2, h3, h4]

/-- C5 (witness): the amended characterization applied to `B7` (no
"Rich" magic in an all-zero prefix). -/
theorem c5_witness : decode B7 = .error .headerNotFound := by
  apply ((c5_amended_headerNotFound_iff B7).1).2
  refine ⟨0, by rfl, Or.inl ?_⟩
  intro j
  simp [richMagic]

/-- C6 (counterexample): on `B2`, `lfa_new = 0x46`; the 4-byte-aligned
offset 0x44 lies in `[0x40, lfa_new)` and its word XOR-decodes to
"DanS", so the claim says the header start is located there — but the
source's scan only covers `(0x46 - 0x40) / 4 = 1` candidate (offset
0x40) and decode fails with `headerNotFound`. -/
theorem c6_counterexample :
    readDword B2 0x3C = some 0x46 ∧
    findRich (B2.take (0x46 % 65536)) 0 = some 0x10 ∧
    readDword B2 (0x10 + 4) = some 0 ∧
    readDword B2 0x44 = some dansMagic ∧
    (0x44 % 4 = 0 ∧ 0x40 ≤ 0x44 ∧ (0x44 : Nat) < 0x46) ∧
    decode B2 = .error .headerNotFound :=
  ⟨by rfl, by rfl, by rfl, by rfl, by decide, by rfl⟩

/-- C6 (amended): `lfa_new` is the dword at 0x3C masked to its low 16
bits, and the located header start is 0x80 when the word there
XOR-decodes to "DanS", and otherwise the first 4-byte-aligned offset
`o ≥ 0x40` whose whole dword lies below `lfa_new` (`o + 4 ≤ lfa_new`,
not merely `o < lfa_new`) and whose word XOR-decodes to "DanS". -/
theorem c6_amended_header_start (bs : List Nat) (w r chk s : Nat)
    (_h1 : readDword bs 0x3C = some w)
    (_h2 : findRich (bs.take (w % 65536)) 0 = some r)
    (_h3 : readDword bs (r + 4) = some chk)
    (h4 : locateStartAux bs (w % 65536) chk = .ok s) :
    ∃ w80, readDword bs 0x80 = some w80 ∧
      ((w80 ^^^ chk = dansMagic ∧ s = 0x80) ∨
       (w80 ^^^ chk ≠ dansMagic ∧ s % 4 = 0 ∧ 0x40 ≤ s ∧ s + 4 ≤ w % 65536 ∧
         (∃ ws, readDword bs s = some ws ∧ ws ^^^ chk = dansMagic) ∧
         ∀ o, o % 4 = 0 → 0x40 ≤ o → o < s →
           ∃ wo, readDword bs o = some wo ∧ wo ^^^ chk ≠ dansMagic)) := by
  obtain ⟨w80, h80, hcase⟩ := locateStartAux_ok bs (w % 65536) chk s h4
  refine ⟨w80, h80, ?_⟩
  rcases hcase with ⟨hdans, hs⟩ | ⟨hdans, hsne, hscan⟩
  · exact Or.inl ⟨hdans, hs⟩
  · obtain ⟨i, hi, hsi, hmatch, hbefore⟩ :=
      scanDans_ok_first bs chk ((w % 65536 - 0x40) / 4) 0x40 s (by omega) hscan hsne
    refine Or.inr ⟨hdans, by omega, by omega, by omega, hmatch, ?_⟩
    intro o ho4 ho40 hos
    obtain ⟨j, hoj, hji⟩ :
        ∃ j, o = 0x40 + 4 * j ∧ j < i := ⟨(o - 0x40) / 4, by omega, by omega⟩
    obtain ⟨wj, hwj, hnj⟩ := hbefore j hji
    refine ⟨wj, ?_, hnj⟩
    rw [hoj]
    exact hwj

/-- C6 (witness): the amended characterization on `B8`, whose "DanS"
word is found by the scan at offset 0x48. -/
theorem c6_witness :
    ∃ w80, readDword B8 0x80 = some w80 ∧
      ((w80 ^^^ 0 = dansMagic ∧ 0x48 = 0x80) ∨
       (w80 ^^^ 0 ≠ dansMagic ∧ 0x48 % 4 = 0 ∧ 0x40 ≤ 0x48 ∧ 0x48 + 4 ≤ 0x60 % 65536 ∧
         (∃ ws, readDword B8 0x48 = some ws ∧ ws ^^^ 0 = dansMagic) ∧
         ∀ o, o % 4 = 0 → 0x40 ≤ o → o < 0x48 →
           ∃ wo, readDword B8 o = some wo ∧ wo ^^^ 0 ≠ dansMagic)) :=
  c6_amended_header_start B8 0x60 0x20 0 0x48 (by rfl) (by rfl) (by rfl) (by rfl)

/-- C8: two decode results compare equal under the source's `__eq__` iff
they have the same number of entries, every tool id maps to the same
entry in both (so identical key-to-entry sets compare equal regardless
of insertion order, and a single differing `used_count` makes them
unequal), and their `checksum_matches` flags agree. -/
theorem c8_eq_iff (bs1 bs2 : List Nat) (a b : RichHeader)
    (ha : decode bs1 = .ok a) (hb : decode bs2 = .ok b) :
    richEq a b = true ↔
      (a.entries.length = b.entries.length ∧
       (∀ k, odLookup a.entries k = odLookup b.entries k) ∧
       a.checksum_matches = b.checksum_matches) := by
  have hna := decode_nodup_keys bs1 a ha
  have hnb := decode_nodup_keys bs2 b hb
  constructor
  · intro he
    unfold richEq at he
    have hlen : a.entries.length = b.entries.length := by
      by_contra hc
      rw [if_pos (by simpa using hc)] at he
      exact Bool.noConfusion he
    rw [if_neg (by simp [hlen])] at he
    have hall : (a.entries.all fun kv => odLookup b.entries kv.1 == some kv.2) = true := by
      by_contra hc
      rw [if_neg (by simpa using hc)] at he
      exact Bool.noConfusion he
    rw [if_pos hall] at he
    have hcs : a.checksum_matches = b.checksum_matches := by simpa using he
    have hmem : ∀ kv ∈ a.entries, odLookup b.entries kv.1 = some kv.2 := by
      intro kv hkv
      have := List.all_eq_true.1 hall kv hkv
      simpa using this
    refine ⟨hlen, ?_, hcs⟩
    have hsub : ∀ x ∈ a.entries.map Prod.fst, x ∈ b.entries.map Prod.fst := by
      intro x hx
      obtain ⟨kv, hkv, hxk⟩ := List.mem_map.1 hx
      have hlk := hmem kv hkv
      have hmb : (kv.1, kv.2) ∈ b.entries :=
        (odLookup_eq_some_iff_mem kv.1 kv.2 b.entries hnb).1 hlk
      have : kv.1 ∈ b.entries.map Prod.fst := List.mem_map_of_mem Prod.fst hmb
      exact hxk ▸ this
    have htf : (a.entries.map Prod.fst).toFinset = (b.entries.map Prod.fst).toFinset := by
      apply Finset.eq_of_subset_of_card_le
      · intro x hx
        exact List.mem_toFinset.2 (hsub x (List.mem_toFinset.1 hx))
      · rw [List.toFinset_card_of_nodup hna, List.toFinset_card_of_nodup hnb]
        simp [hlen]
    intro k
    cases hka : odLookup a.entries k with
    | some v =>
      have hmemk : (k, v) ∈ a.entries :=
        (odLookup_eq_some_iff_mem k v a.entries hna).1 hka
      exact (hmem (k, v) hmemk).symm
    | none =>
      have hknot : k ∉ a.entries.map Prod.fst := (odLookup_eq_none_iff k a.entries).1 hka
      have hknotb : k ∉ b.entries.map Prod.fst := by
        intro hc
        exact hknot (List.mem_toFinset.1 (htf ▸ List.mem_toFinset.2 hc))
      exact ((odLookup_eq_none_iff k b.entries).2 hknotb).symm
  · rintro ⟨hlen, hlk, hcs⟩
    unfold richEq
    rw [if_neg (by simp [hlen])]
    have hall : (a.entries.all fun kv => odLookup b.entries kv.1 == some kv.2) = true := by
      apply List.all_eq_true.2
      intro kv hkv
      have hsome : odLookup a.entries kv.1 = some kv.2 :=
        (odLookup_eq_some_iff_mem kv.1 kv.2 a.entries hna).2 hkv
      have h2 : odLookup b.entries kv.1 = some kv.2 := by
        rw [← hlk kv.1]
        exact hsome
      simpa using h2
    rw [if_pos hall]
    simp [hcs]

/-- C8 (witness): the equality characterization instantiated on the
decode result of `B0` compared with itself. -/
theorem c8_witness :
    richEq ⟨[(1, ⟨2, 5⟩)], false⟩ ⟨[(1, ⟨2, 5⟩)], false⟩ = true ↔
      ((⟨[(1, ⟨2, 5⟩)], false⟩ : RichHeader).entries.length =
        (⟨[(1, ⟨2, 5⟩)], false⟩ : RichHeader).entries.length ∧
       (∀ k, odLookup (⟨[(1, ⟨2, 5⟩)], false⟩ : RichHeader).entries k =
         odLookup (⟨[(1, ⟨2, 5⟩)], false⟩ : RichHeader).entries k) ∧
       (⟨[(1, ⟨2, 5⟩)], false⟩ : RichHeader).checksum_matches =
         (⟨[(1, ⟨2, 5⟩)], false⟩ : RichHeader).checksum_matches) :=
  c8_eq_iff B0 B0 ⟨[(1, ⟨2, 5⟩)], false⟩ ⟨[(1, ⟨2, 5⟩)], false⟩ (by rfl) (by rfl)

end PERich

